import Mathlib

/-!
Verification of `pylearn2/scripts/dbm/top_filters.py`.

The script inspects the two weight matrices of a trained DBM.  We embed its
numeric core shallowly: matrices are lists of columns (`List (List ℚ)`) and
machine floats are modelled as exact rationals.  Each definition mirrors one
piece of the script and keeps its name where Lean allows it.
-/

namespace TopFilters

/-- The coverage threshold `thresh = .9` of `get_elements_count`. -/
def thresh : ℚ := 9 / 10

/-- Elementwise absolute value of a column: `wa = np.abs(w)`. -/
def absList (w : List ℚ) : List ℚ := w.map (fun x => |x|)

/-- Ascending sort of the absolute values: `s = np.asarray(sorted(wa))`. -/
def sortedAbs (w : List ℚ) : List ℚ := (absList w).insertionSort (fun a b => a ≤ b)

/-- `s[-count:].sum()`: sum of the last `count` entries of `s` (numpy slices
the whole array when `count` is at least its length; `count` is never zero in
the loop below). -/
def tailSum (s : List ℚ) (count : ℕ) : ℚ := (s.drop (s.length - count)).sum

/-- The inner loop of `get_elements_count`,
`while s[-count:].sum() < thresh * total: count += 1`,
indexed by explicit fuel; it returns the final value of `count`. -/
def covLoop (s : List ℚ) (total : ℚ) : ℕ → ℕ → ℕ
  | count, 0 => count
  | count, fuel + 1 =>
    if tailSum s count < thresh * total then covLoop s total (count + 1) fuel else count

/-- The per-column body of `get_elements_count`: `total = wa.sum()`,
`count = 1`, then the accumulation loop.  Fuel `w.length + 1` always
suffices (see `covLoop_fuel_irrelevant` below). -/
def colCount (w : List ℚ) : ℕ :=
  covLoop (sortedAbs w) (absList w).sum 1 ((sortedAbs w).length + 1)

/-- Sum of the `count` largest absolute values of a column: the last `count`
entries of the ascending sort of the absolute values. -/
def topAbsSum (w : List ℚ) (count : ℕ) : ℚ := tailSum (sortedAbs w) count

lemma sortedAbs_perm (w : List ℚ) : (sortedAbs w).Perm (absList w) :=
  List.perm_insertionSort _ _

lemma sortedAbs_sum (w : List ℚ) : (sortedAbs w).sum = (absList w).sum :=
  (sortedAbs_perm w).sum_eq

lemma sortedAbs_length (w : List ℚ) : (sortedAbs w).length = w.length := by
  rw [(sortedAbs_perm w).length_eq]
  simp [absList]

lemma absList_nonneg (w : List ℚ) : ∀ x ∈ absList w, 0 ≤ x := by
  intro x hx
  obtain ⟨y, _, rfl⟩ := List.mem_map.1 hx
  exact abs_nonneg y

lemma sortedAbs_nonneg (w : List ℚ) : ∀ x ∈ sortedAbs w, 0 ≤ x := by
  intro x hx
  exact absList_nonneg w x ((sortedAbs_perm w).mem_iff.1 hx)

lemma absList_sum_nonneg (w : List ℚ) : 0 ≤ (absList w).sum :=
  List.sum_nonneg (absList_nonneg w)

lemma tailSum_nonneg (w : List ℚ) (c : ℕ) : 0 ≤ topAbsSum w c := by
  apply List.sum_nonneg
  intro x hx
  exact sortedAbs_nonneg w x ((List.drop_sublist _ _).subset hx)

lemma tailSum_full (s : List ℚ) (c : ℕ) (h : s.length ≤ c) : tailSum s c = s.sum := by
  unfold tailSum
  rw [Nat.sub_eq_zero_of_le h, List.drop_zero]

lemma thresh_total_le (w : List ℚ) : thresh * (absList w).sum ≤ (absList w).sum := by
  have h := absList_sum_nonneg w
  unfold thresh
  linarith

/-- Once some `m` at least `count` satisfies the exit condition, the loop run
with fuel at least `m - count` stops at the least count satisfying it. -/
lemma covLoop_spec (s : List ℚ) (total : ℚ) (m : ℕ)
    (hm : ¬ tailSum s m < thresh * total) :
    ∀ fuel count, count ≤ m → m - count ≤ fuel →
      ¬ tailSum s (covLoop s total count fuel) < thresh * total ∧
      count ≤ covLoop s total count fuel ∧
      ∀ c, count ≤ c → c < covLoop s total count fuel → tailSum s c < thresh * total := by
  intro fuel
  induction fuel with
  | zero =>
    intro count hcm hfuel
    have hc : count = m := by omega
    subst hc
    refine ⟨by simpa [covLoop] using hm, le_refl _, ?_⟩
    intro c h1 h2
    simp only [covLoop] at h2
    omega
  | succ fuel ih =>
    intro count hcm hfuel
    have hunf : covLoop s total count (fuel + 1) =
        if tailSum s count < thresh * total then covLoop s total (count + 1) fuel
        else count := rfl
    by_cases hcond : tailSum s count < thresh * total
    · have hne : count ≠ m := fun h => hm (h ▸ hcond)
      obtain ⟨ha, hb, hc⟩ := ih (count + 1) (by omega) (by omega)
      rw [hunf, if_pos hcond]
      refine ⟨ha, by omega, ?_⟩
      intro c h1 h2
      rcases Nat.eq_or_lt_of_le h1 with h | h
      · exact h ▸ hcond
      · exact hc c h h2
    · rw [hunf, if_neg hcond]
      exact ⟨hcond, le_refl _, fun c h1 h2 => by omega⟩

/-- The per-column count is the least `c ≥ 1` whose top-`c` absolute mass
reaches `thresh` times the total absolute mass. -/
lemma colCount_isLeast (w : List ℚ) :
    IsLeast {c : ℕ | 1 ≤ c ∧ thresh * (absList w).sum ≤ topAbsSum w c} (colCount w) := by
  have hm : ¬ tailSum (sortedAbs w) (max 1 (sortedAbs w).length) < thresh * (absList w).sum := by
    rw [tailSum_full _ _ (le_max_right _ _), sortedAbs_sum w]
    exact not_lt.2 (thresh_total_le w)
  obtain ⟨h1, h2, h3⟩ := covLoop_spec (sortedAbs w) (absList w).sum _ hm
    ((sortedAbs w).length + 1) 1 (le_max_left _ _) (by omega)
  have hcc : colCount w = covLoop (sortedAbs w) (absList w).sum 1 ((sortedAbs w).length + 1) :=
    rfl
  rw [← hcc] at h1 h2 h3
  constructor
  · exact ⟨h2, not_lt.1 h1⟩
  · intro c hc
    by_contra h
    exact absurd hc.2 (not_le.2 (h3 c hc.1 (by omega)))

lemma colCount_pos (w : List ℚ) : 1 ≤ colCount w :=
  (colCount_isLeast w).1.1

lemma colCount_covers (w : List ℚ) :
    thresh * (absList w).sum ≤ topAbsSum w (colCount w) :=
  (colCount_isLeast w).1.2

lemma colCount_min (w : List ℚ) (c : ℕ) (h1 : 1 ≤ c)
    (h2 : thresh * (absList w).sum ≤ topAbsSum w c) : colCount w ≤ c :=
  (colCount_isLeast w).2 ⟨h1, h2⟩

lemma colCount_le_length (w : List ℚ) (hw : w ≠ []) : colCount w ≤ w.length := by
  apply colCount_min
  · have := List.length_pos.2 hw
    omega
  · show thresh * (absList w).sum ≤ tailSum (sortedAbs w) w.length
    rw [tailSum_full _ _ (by rw [sortedAbs_length]), sortedAbs_sum]
    exact thresh_total_le w

/-- Results of two runs of the loop that both stopped correctly agree. -/
lemma cov_result_unique {s : List ℚ} {total : ℚ} {r1 r2 : ℕ}
    (e1 : ¬ tailSum s r1 < thresh * total) (p1 : 1 ≤ r1)
    (l1 : ∀ c, 1 ≤ c → c < r1 → tailSum s c < thresh * total)
    (e2 : ¬ tailSum s r2 < thresh * total) (p2 : 1 ≤ r2)
    (l2 : ∀ c, 1 ≤ c → c < r2 → tailSum s c < thresh * total) : r1 = r2 := by
  rcases lt_trichotomy r1 r2 with h | h | h
  · exact absurd (l2 r1 p1 h) e1
  · exact h
  · exact absurd (l1 r2 p2 h) e2

/-- Any fuel of at least `w.length` makes the accumulation loop of
`get_elements_count` yield `colCount w` (the loop terminates). -/
lemma covLoop_fuel_irrelevant (w : List ℚ) (fuel : ℕ)
    (hf : w.length ≤ fuel) :
    covLoop (sortedAbs w) (absList w).sum 1 fuel = colCount w := by
  have hm : ¬ tailSum (sortedAbs w) (max 1 (sortedAbs w).length) < thresh * (absList w).sum := by
    rw [tailSum_full _ _ (le_max_right _ _), sortedAbs_sum w]
    exact not_lt.2 (thresh_total_le w)
  have hlen := sortedAbs_length w
  obtain ⟨a1, a2, a3⟩ := covLoop_spec (sortedAbs w) (absList w).sum _ hm fuel 1
    (le_max_left _ _) (by omega)
  obtain ⟨b1, b2, b3⟩ := covLoop_spec (sortedAbs w) (absList w).sum _ hm
    ((sortedAbs w).length + 1) 1 (le_max_left _ _) (by omega)
  exact cov_result_unique a1 a2 a3 b1 b2 b3

/-- Per-column total and top sums scale by `k` under `w ↦ k • w`, `k > 0`. -/
lemma sum_map_mul (k : ℚ) (l : List ℚ) : (l.map (fun x => k * x)).sum = k * l.sum := by
  induction l with
  | nil => simp
  | cons a t ih => simp [ih, mul_add]

lemma absList_scale (k : ℚ) (hk : 0 < k) (w : List ℚ) :
    absList (w.map (fun x => k * x)) = (absList w).map (fun x => k * x) := by
  unfold absList
  rw [List.map_map, List.map_map]
  apply List.map_congr_left
  intro x _
  simp [Function.comp, abs_mul, abs_of_pos hk]

lemma sortedAbs_scale (k : ℚ) (hk : 0 < k) (w : List ℚ) :
    sortedAbs (w.map (fun x => k * x)) = (sortedAbs w).map (fun x => k * x) := by
  apply List.eq_of_perm_of_sorted (r := fun a b : ℚ => a ≤ b)
  · exact ((sortedAbs_perm _).trans (by rw [absList_scale k hk])).trans
      ((sortedAbs_perm w).map _).symm
  · exact List.sorted_insertionSort _ _
  · exact List.pairwise_map.2 ((List.sorted_insertionSort _ _).imp
      (fun h => mul_le_mul_of_nonneg_left h hk.le))

lemma topAbsSum_scale (k : ℚ) (hk : 0 < k) (w : List ℚ) (c : ℕ) :
    topAbsSum (w.map (fun x => k * x)) c = k * topAbsSum w c := by
  unfold topAbsSum tailSum
  rw [sortedAbs_scale k hk, List.length_map, ← List.map_drop, sum_map_mul]

lemma colCount_scale (k : ℚ) (w : List ℚ) (hk : 0 < k) :
    colCount (w.map (fun x => k * x)) = colCount w := by
  have hset : {c : ℕ | 1 ≤ c ∧
      thresh * (absList (w.map (fun x => k * x))).sum ≤ topAbsSum (w.map (fun x => k * x)) c}
      = {c : ℕ | 1 ≤ c ∧ thresh * (absList w).sum ≤ topAbsSum w c} := by
    ext c
    simp only [Set.mem_setOf_eq, absList_scale k hk, sum_map_mul, topAbsSum_scale k hk]
    constructor
    · rintro ⟨h1, h2⟩
      refine ⟨h1, ?_⟩
      have : k * (thresh * (absList w).sum) ≤ k * topAbsSum w c := by linarith
      exact le_of_mul_le_mul_left this hk
    · rintro ⟨h1, h2⟩
      refine ⟨h1, ?_⟩
      have := mul_le_mul_of_nonneg_left h2 hk.le
      linarith
  have ha := colCount_isLeast (w.map (fun x => k * x))
  rw [hset] at ha
  exact ha.unique (colCount_isLeast w)

/-! The whole of `get_elements_count`: per-column counts over the first `N`
columns, a running maximum, then the caps `lim = 10` and `N1`. -/

/-- The cap `lim = 10` of `get_elements_count`. -/
def lim : ℕ := 10

/-- `get_elements_count(N, N1, W2)`: the loop `for i in xrange(N)` computes
`colCount` of each of the first `N` columns and tracks `max_count`; the
result is `max_count` capped at `lim` and then at `N1`. -/
def get_elements_count (N N1 : ℕ) (W2 : List (List ℚ)) : ℕ :=
  let max_count := ((W2.take N).map colCount).foldl max 0
  let count := max_count
  let count1 := if count > lim then lim else count
  if count1 > N1 then N1 else count1

lemma get_elements_count_min (N N1 : ℕ) (W2 : List (List ℚ)) :
    get_elements_count N N1 W2 =
      min (min (((W2.take N).map colCount).foldl max 0) 10) N1 := by
  simp only [get_elements_count, lim]
  split_ifs <;> omega

lemma init_le_foldl_max (l : List ℕ) : ∀ a : ℕ, a ≤ l.foldl max a := by
  induction l with
  | nil => intro a; exact le_refl a
  | cons b t ih => intro a; exact le_trans (le_max_left a b) (ih (max a b))

lemma le_foldl_max {l : List ℕ} {x : ℕ} (hx : x ∈ l) : ∀ a : ℕ, x ≤ l.foldl max a := by
  induction l with
  | nil => cases hx
  | cons b t ih =>
    intro a
    rcases List.mem_cons.1 hx with h | h
    · subst h
      exact le_trans (le_max_right a x) (init_le_foldl_max t _)
    · exact ih h _

/-- C1: for every column, the per-column count computed by
`get_elements_count` is the smallest `c ≥ 1` such that the sum of the `c`
largest absolute values of the column reaches `0.9` times the column's total
absolute mass; in particular a column whose largest absolute entry alone
reaches `0.9` of the mass gets count `1`. -/
theorem colCount_least_coverage (w : List ℚ) :
    IsLeast {c : ℕ | 1 ≤ c ∧ thresh * (absList w).sum ≤ topAbsSum w c} (colCount w) ∧
    (thresh * (absList w).sum ≤ topAbsSum w 1 → colCount w = 1) :=
  ⟨colCount_isLeast w,
    fun h1 => le_antisymm (colCount_min w 1 (le_refl 1) h1) (colCount_pos w)⟩

/-- C2: with `N = min(N2, 100)` considered columns, the global display width
returned by `get_elements_count` is the minimum of the maximal per-column
coverage count, the fixed cap `10`, and `N1`. -/
theorem get_elements_count_is_min (N1 : ℕ) (W2 : List (List ℚ)) :
    get_elements_count (min W2.length 100) N1 W2 =
      min (min (((W2.take (min W2.length 100)).map colCount).foldl max 0) 10) N1 :=
  get_elements_count_min _ N1 W2

/-- C3 counterexample: a single column of twelve ones needs per-column count
`11`, yet the returned global count is capped to `10`, so the global count is
not `≥` every considered per-column count. -/
theorem global_count_lt_colCount_cex :
    colCount (List.replicate 12 (1 : ℚ)) = 11 ∧
    get_elements_count 1 12 [List.replicate 12 (1 : ℚ)] = 10 ∧
    ¬ colCount (List.replicate 12 (1 : ℚ)) ≤
        get_elements_count 1 12 [List.replicate 12 (1 : ℚ)] := by
  have h : colCount (List.replicate 12 (1 : ℚ)) = 11 := by
    norm_num [colCount, covLoop, sortedAbs, absList, tailSum, thresh,
      List.insertionSort, List.orderedInsert, List.replicate]
  have h2 : get_elements_count 1 12 [List.replicate 12 (1 : ℚ)] = 10 := by
    rw [get_elements_count_min]
    norm_num [h]
  exact ⟨h, h2, by rw [h, h2]; omega⟩

/-- C3 amended: the global count returned by `get_elements_count` is `≤ 10`,
`≤ N1`, and at least `min(colCount col, 10, N1)` for every considered column
(the raw per-column count itself can exceed the cap, so the original `≥`
claim fails). -/
theorem get_elements_count_bounds (N N1 : ℕ) (W2 : List (List ℚ)) :
    get_elements_count N N1 W2 ≤ 10 ∧
    get_elements_count N N1 W2 ≤ N1 ∧
    ∀ col ∈ W2.take N, min (min (colCount col) 10) N1 ≤ get_elements_count N N1 W2 := by
  rw [get_elements_count_min]
  refine ⟨by omega, by omega, ?_⟩
  intro col hcol
  have h := le_foldl_max (List.mem_map_of_mem colCount hcol) 0
  omega

/-- C4: a column whose entries are all zero makes the accumulation loop stop
at once with per-column count `1` (the condition `0 < 0.9 * 0` already fails
at `count = 1`); no division is involved. -/
theorem colCount_zero_column (w : List ℚ) (hw : ∀ x ∈ w, x = 0) :
    colCount w = 1 := by
  have htot : (absList w).sum = 0 := by
    apply List.sum_eq_zero
    intro x hx
    obtain ⟨y, hy, rfl⟩ := List.mem_map.1 hx
    rw [hw y hy, abs_zero]
  apply le_antisymm _ (colCount_pos w)
  apply colCount_min w 1 (le_refl 1)
  rw [htot, mul_zero]
  exact tailSum_nonneg w 1

/-- Witness for C4 at the column `[0, 0, 0]`. -/
theorem colCount_zero_column_witness : colCount [(0 : ℚ), 0, 0] = 1 :=
  colCount_zero_column [0, 0, 0] (by simp)

/-- C9: for a nonempty column the accumulation loop terminates — any fuel of
at least `N1` steps gives the same count — and the count lies between `1` and
`N1` while covering `0.9` of the total absolute mass. -/
theorem covLoop_terminating_bounds (w : List ℚ) (hw : w ≠ []) :
    1 ≤ colCount w ∧ colCount w ≤ w.length ∧
    thresh * (absList w).sum ≤ topAbsSum w (colCount w) ∧
    ∀ fuel, w.length ≤ fuel →
      covLoop (sortedAbs w) (absList w).sum 1 fuel = colCount w :=
  ⟨colCount_pos w, colCount_le_length w hw, colCount_covers w,
    fun fuel hf => covLoop_fuel_irrelevant w fuel hf⟩

/-- Witness for C9 at the column `[1, 2]`. -/
theorem covLoop_terminating_bounds_witness :
    1 ≤ colCount [(1 : ℚ), 2] ∧ colCount [(1 : ℚ), 2] ≤ [(1 : ℚ), 2].length ∧
    thresh * (absList [(1 : ℚ), 2]).sum ≤ topAbsSum [(1 : ℚ), 2] (colCount [(1 : ℚ), 2]) ∧
    ∀ fuel, [(1 : ℚ), 2].length ≤ fuel →
      covLoop (sortedAbs [(1 : ℚ), 2]) (absList [(1 : ℚ), 2]).sum 1 fuel =
        colCount [(1 : ℚ), 2] :=
  covLoop_terminating_bounds [1, 2] (by simp)

/-- C10: the per-column coverage count is invariant under scaling a column by
any positive rational. -/
theorem colCount_scale_invariant (k : ℚ) (w : List ℚ) (hk : 0 < k) :
    colCount (w.map (fun x => k * x)) = colCount w :=
  colCount_scale k w hk

/-- Witness for C10 at `k = 2`, `w = [1, 2, 3]`. -/
theorem colCount_scale_invariant_witness :
    colCount ([(1 : ℚ), 2, 3].map (fun x => (2 : ℚ) * x)) = colCount [(1 : ℚ), 2, 3] :=
  colCount_scale_invariant 2 [1, 2, 3] (by norm_num)

/-! `sort_layer2`: `norms = np.square(W2).sum(axis=0)`,
`idxs = [elem[1] for elem in sorted(zip(-norms, range(norms.shape[0])))]`,
then a new matrix whose column `i` is column `idxs[i]` of `W2`. -/

/-- Squared norm of a column: one entry of `np.square(W2).sum(axis=0)`. -/
def colNorm (w : List ℚ) : ℚ := (w.map (fun x => x * x)).sum

/-- Python's lexicographic order on the pairs `(-norm, index)`. -/
def keyLe (a b : ℚ × ℕ) : Prop := a.1 < b.1 ∨ (a.1 = b.1 ∧ a.2 ≤ b.2)

instance : DecidableRel keyLe := fun a b => by
  unfold keyLe
  infer_instance

instance : IsTotal (ℚ × ℕ) keyLe where
  total a b := by
    unfold keyLe
    rcases lt_trichotomy a.1 b.1 with h | h | h
    · exact Or.inl (Or.inl h)
    · rcases Nat.le_total a.2 b.2 with h2 | h2
      · exact Or.inl (Or.inr ⟨h, h2⟩)
      · exact Or.inr (Or.inr ⟨h.symm, h2⟩)
    · exact Or.inr (Or.inl h)

instance : IsTrans (ℚ × ℕ) keyLe where
  trans a b c hab hbc := by
    unfold keyLe at *
    rcases hab with h | ⟨he, hi⟩ <;> rcases hbc with h2 | ⟨he2, hi2⟩
    · exact Or.inl (lt_trans h h2)
    · exact Or.inl (he2 ▸ h)
    · exact Or.inl (he ▸ h2)
    · exact Or.inr ⟨he.trans he2, le_trans hi hi2⟩

/-- `sorted(zip(-norms, range(norms.shape[0])))` projected to the indices. -/
def sortIdxs (W2 : List (List ℚ)) : List ℕ :=
  ((List.zip ((W2.map colNorm).map (fun x => -x))
      (List.range (W2.map colNorm).length)).insertionSort keyLe).map Prod.snd

/-- `sort_layer2(W2)`: the returned matrix `new`, whose column `i` is
`W2[:, idxs[i]]`.  (The imperative write loop is modelled separately as
`sort_layer2H` below.) -/
def sort_layer2 (W2 : List (List ℚ)) : List (List ℚ) :=
  (sortIdxs W2).map (fun i => W2.getD i [])

lemma zip_neg_range (norms : List ℚ) :
    List.zip (norms.map (fun x => -x)) (List.range norms.length) =
      (List.range norms.length).map (fun i => (-(norms.getD i 0), i)) := by
  apply List.ext_getElem
  · simp
  · intro i h1 h2
    have hi : i < norms.length := by
      simpa using h2
    simp only [List.getElem_zip, List.getElem_map, List.getElem_range]
    rw [List.getD_eq_getElem norms 0 hi]

lemma map_getD_range {α : Type*} (l : List α) (d : α) :
    (List.range l.length).map (fun i => l.getD i d) = l := by
  apply List.ext_getElem
  · simp
  · intro i h1 h2
    simp only [List.getElem_map, List.getElem_range]
    rw [List.getD_eq_getElem l d h2]

lemma sortIdxs_perm (W2 : List (List ℚ)) :
    (sortIdxs W2).Perm (List.range W2.length) := by
  unfold sortIdxs
  have h1 := (List.perm_insertionSort keyLe
    (List.zip ((W2.map colNorm).map (fun x => -x))
      (List.range (W2.map colNorm).length))).map Prod.snd
  refine h1.trans ?_
  rw [zip_neg_range, List.map_map]
  have : (Prod.snd ∘ fun i => (-((W2.map colNorm).getD i 0), i)) = fun i : ℕ => i := rfl
  rw [this, List.map_id', List.length_map]

lemma sort_layer2_perm (W2 : List (List ℚ)) : (sort_layer2 W2).Perm W2 := by
  unfold sort_layer2
  refine ((sortIdxs_perm W2).map _).trans ?_
  rw [map_getD_range W2 []]

lemma norms_getD (W2 : List (List ℚ)) (i : ℕ) (h : i < W2.length) :
    (W2.map colNorm).getD i 0 = colNorm (W2.getD i []) := by
  rw [List.getD_eq_getElem _ _ (by simpa), List.getD_eq_getElem _ _ h, List.getElem_map]

/-- The index list is strictly sorted for the lexicographic key
`(-norm, original index)`: norms non-increasing, ties by ascending index. -/
lemma sortIdxs_pairwise (W2 : List (List ℚ)) :
    (sortIdxs W2).Pairwise (fun i j =>
      colNorm (W2.getD j []) < colNorm (W2.getD i []) ∨
      (colNorm (W2.getD i []) = colNorm (W2.getD j []) ∧ i < j)) := by
  have hnodup : (sortIdxs W2).Nodup :=
    ((sortIdxs_perm W2).nodup_iff).2 (List.nodup_range _)
  have hsorted : List.Pairwise keyLe
      ((List.zip ((W2.map colNorm).map (fun x => -x))
        (List.range (W2.map colNorm).length)).insertionSort keyLe) :=
    List.sorted_insertionSort keyLe _
  have hne : List.Pairwise (fun p q : ℚ × ℕ => p.2 ≠ q.2)
      ((List.zip ((W2.map colNorm).map (fun x => -x))
        (List.range (W2.map colNorm).length)).insertionSort keyLe) :=
    List.pairwise_map.1 hnodup
  have hshape : ∀ p ∈ (List.zip ((W2.map colNorm).map (fun x => -x))
      (List.range (W2.map colNorm).length)).insertionSort keyLe,
      p.1 = -(colNorm (W2.getD p.2 [])) ∧ p.2 < W2.length := by
    intro p hp
    rw [List.mem_insertionSort, zip_neg_range] at hp
    obtain ⟨i, hi, rfl⟩ := List.mem_map.1 hp
    rw [List.length_map, List.mem_range] at hi
    exact ⟨by rw [norms_getD W2 i hi], hi⟩
  have hcomb := (hsorted.and hne).imp_of_mem (S := fun p q : ℚ × ℕ =>
      colNorm (W2.getD q.2 []) < colNorm (W2.getD p.2 []) ∨
      (colNorm (W2.getD p.2 []) = colNorm (W2.getD q.2 []) ∧ p.2 < q.2)) ?_
  · unfold sortIdxs
    exact List.pairwise_map.2 hcomb
  · intro p q hp hq hpq
    obtain ⟨hp1, _⟩ := hshape p hp
    obtain ⟨hq1, _⟩ := hshape q hq
    obtain ⟨hle, hsne⟩ := hpq
    unfold keyLe at hle
    rcases hle with h | ⟨he, hi⟩
    · rw [hp1, hq1, neg_lt_neg_iff] at h
      exact Or.inl h
    · rw [hp1, hq1, neg_inj] at he
      exact Or.inr ⟨he, lt_of_le_of_ne hi hsne⟩

lemma sort_layer2_pairwise (W2 : List (List ℚ)) :
    (sort_layer2 W2).Pairwise (fun a b => colNorm b ≤ colNorm a) := by
  unfold sort_layer2
  apply List.pairwise_map.2
  apply (sortIdxs_pairwise W2).imp
  intro i j h
  rcases h with h | ⟨h, _⟩
  · exact le_of_lt h
  · exact le_of_eq h.symm

/-- C5: `sort_layer2` returns a column permutation of `W2` with column norms
non-increasing; the chosen index order is strictly sorted by descending norm
with ties broken by ascending original index; and on the spec's example
(columns `[1,0,0.5]` and `[0,2,0]`) it swaps the two columns. -/
theorem sort_layer2_spec :
    (∀ W2 : List (List ℚ),
      (sort_layer2 W2).Perm W2 ∧
      (sort_layer2 W2).Pairwise (fun a b => colNorm b ≤ colNorm a) ∧
      ∃ idxs : List ℕ,
        idxs.Perm (List.range W2.length) ∧
        sort_layer2 W2 = idxs.map (fun i => W2.getD i []) ∧
        idxs.Pairwise (fun i j =>
          colNorm (W2.getD j []) < colNorm (W2.getD i []) ∨
          (colNorm (W2.getD i []) = colNorm (W2.getD j []) ∧ i < j))) ∧
    sort_layer2 [[1, 0, 1/2], [0, 2, 0]] = [[0, 2, 0], [1, 0, 1/2]] := by
  constructor
  · intro W2
    exact ⟨sort_layer2_perm W2, sort_layer2_pairwise W2,
      sortIdxs W2, sortIdxs_perm W2, rfl, sortIdxs_pairwise W2⟩
  · norm_num [sort_layer2, sortIdxs, colNorm, keyLe, List.insertionSort,
      List.orderedInsert, List.range, List.range.loop]

/-! A heap model for the mutation contract of `sort_layer2` (claim C6):
the heap is a list of matrices, a reference is an index into it.
`new = W2.copy()` allocates a fresh cell at the end of the heap; the loop
`for i in xrange(len(idxs)): new[:, i] = W2[:, idxs[i]]` writes only through
the fresh reference, reading `W2` from its own cell each iteration. -/

/-- A matrix as the rest of the file uses it: a list of columns. -/
abbrev Mat := List (List ℚ)

/-- One iteration of the write loop on the heap: read `W2` at `w2ref`, write
column `i` of the matrix at `newref`. -/
def heapStep (w2ref newref : ℕ) (f : ℕ → ℕ) (hh : List Mat) (i : ℕ) : List Mat :=
  hh.set newref ((hh.getD newref []).set i ((hh.getD w2ref []).getD (f i) []))

/-- The whole write loop `for i in xrange(len(idxs))`. -/
def sortWriteLoop (w2ref newref : ℕ) (idxs : List ℕ) (h : List Mat) : List Mat :=
  (List.range idxs.length).foldl (heapStep w2ref newref (fun i => idxs.getD i 0)) h

/-- `sort_layer2` acting on the heap: compute `idxs` from the matrix at
`w2ref`, allocate the copy `new`, run the write loop, return the heap and
the reference to `new`. -/
def sort_layer2H (h : List Mat) (w2ref : ℕ) : List Mat × ℕ :=
  (sortWriteLoop w2ref h.length (sortIdxs (h.getD w2ref [])) (h ++ [h.getD w2ref []]),
    h.length)

lemma getD_set_ne {α : Type*} {l : List α} {i j : ℕ} (h : i ≠ j) (x : α) (d : α) :
    (l.set i x).getD j d = l.getD j d := by
  rw [List.getD_eq_getElem?_getD, List.getD_eq_getElem?_getD, List.getElem?_set_ne h]

lemma getD_set_self {α : Type*} {l : List α} {i : ℕ} (h : i < l.length) (x : α) (d : α) :
    (l.set i x).getD i d = x := by
  rw [List.getD_eq_getElem?_getD, List.getElem?_set_self h]
  rfl

/-- The write loop leaves every cell but `newref` alone, and acts on the cell
at `newref` like the corresponding pure fold over column writes. -/
lemma heapLoop_spec (w2ref newref : ℕ) (f : ℕ → ℕ) (js : List ℕ) :
    ∀ h : List Mat, newref < h.length → w2ref ≠ newref →
      (∀ r, r ≠ newref →
        (js.foldl (heapStep w2ref newref f) h).getD r [] = h.getD r []) ∧
      (js.foldl (heapStep w2ref newref f) h).getD newref [] =
        js.foldl (fun m i => m.set i ((h.getD w2ref []).getD (f i) []))
          (h.getD newref []) := by
  induction js with
  | nil => exact fun h _ _ => ⟨fun r _ => rfl, rfl⟩
  | cons j t ih =>
    intro h hn hw
    have hlen : (heapStep w2ref newref f h j).length = h.length := by
      simp [heapStep]
    obtain ⟨ih1, ih2⟩ := ih (heapStep w2ref newref f h j) (by omega) hw
    constructor
    · intro r hr
      rw [List.foldl_cons, ih1 r hr]
      exact getD_set_ne (Ne.symm hr) _ _
    · rw [List.foldl_cons, ih2]
      rw [show (heapStep w2ref newref f h j).getD w2ref [] = h.getD w2ref [] from
        getD_set_ne (Ne.symm hw) _ _]
      rw [show (heapStep w2ref newref f h j).getD newref [] =
          (h.getD newref []).set j ((h.getD w2ref []).getD (f j) []) from
        getD_set_self hn _ _]
      rw [← List.foldl_cons]

/-- Writing `l[i] := f i` for `i = 0, …, n-1` into a list of length at least
`n` yields `map f (range n)` followed by the untouched tail. -/
lemma foldl_set_range {α : Type*} (f : ℕ → α) :
    ∀ (n : ℕ) (l : List α), n ≤ l.length →
      (List.range n).foldl (fun m i => m.set i (f i)) l =
        (List.range n).map f ++ l.drop n := by
  intro n
  induction n with
  | zero => intro l _; simp
  | succ n ih =>
    intro l hl
    rw [List.range_succ, List.foldl_append, List.foldl_cons, List.foldl_nil,
      ih l (by omega), List.set_append_right _ _ (by simp),
      List.length_map, List.length_range, Nat.sub_self,
      List.drop_eq_getElem_cons (show n < l.length by omega), List.set_cons_zero,
      List.map_append, List.append_assoc]
    rfl

lemma map_getD_eq_range_map {α : Type*} (g : ℕ → α) (idxs : List ℕ) :
    (List.range idxs.length).map (fun i => g (idxs.getD i 0)) = idxs.map g := by
  apply List.ext_getElem
  · simp
  · intro i h1 h2
    simp only [List.getElem_map, List.getElem_range]
    rw [List.getD_eq_getElem idxs 0 (by simpa using h2)]

lemma getD_append_left {α : Type*} (l l' : List α) (i : ℕ) (h : i < l.length) (d : α) :
    (l ++ l').getD i d = l.getD i d := by
  rw [List.getD_eq_getElem _ _ (by simp; omega), List.getD_eq_getElem _ _ h,
    List.getElem_append_left]

lemma getD_append_length {α : Type*} (l : List α) (x : α) (d : α) :
    (l ++ [x]).getD l.length d = x := by
  rw [List.getD_eq_getElem _ _ (by simp)]
  simp

lemma sortIdxs_length (W2 : List (List ℚ)) : (sortIdxs W2).length = W2.length :=
  (sortIdxs_perm W2).length_eq.trans (List.length_range _)

/-- The final contents of the cell `new`: exactly `sort_layer2` of the input. -/
lemma sort_layer2H_content (h : List Mat) (w2ref : ℕ) (hr : w2ref < h.length) :
    (sort_layer2H h w2ref).1.getD h.length [] = sort_layer2 (h.getD w2ref []) := by
  unfold sort_layer2H sortWriteLoop
  obtain ⟨_, h2⟩ := heapLoop_spec w2ref h.length
    (fun i => (sortIdxs (h.getD w2ref [])).getD i 0)
    (List.range (sortIdxs (h.getD w2ref [])).length)
    (h ++ [h.getD w2ref []]) (by simp) (by omega)
  rw [h2]
  have e1 : (h ++ [h.getD w2ref []]).getD h.length [] = h.getD w2ref [] :=
    getD_append_length _ _ _
  have e2 : (h ++ [h.getD w2ref []]).getD w2ref [] = h.getD w2ref [] :=
    getD_append_left _ _ _ hr _
  simp only [e1, e2]
  rw [foldl_set_range
    (fun i => (h.getD w2ref []).getD ((sortIdxs (h.getD w2ref [])).getD i 0) [])
    ((sortIdxs (h.getD w2ref [])).length) (h.getD w2ref [])
    (le_of_eq (sortIdxs_length _))]
  rw [show (h.getD w2ref []).drop ((sortIdxs (h.getD w2ref [])).length) = [] from by
    rw [sortIdxs_length]
    exact List.drop_length _]
  rw [List.append_nil]
  exact map_getD_eq_range_map (fun k => (h.getD w2ref []).getD k []) (sortIdxs (h.getD w2ref []))

/-- C6: run on the heap, `sort_layer2` returns a reference distinct from the
input's; the caller's matrix still holds exactly its old value afterwards;
and the fresh array holds the sorted copy. -/
theorem sort_layer2_no_mutation (h : List Mat) (w2ref : ℕ) (hr : w2ref < h.length) :
    (sort_layer2H h w2ref).2 ≠ w2ref ∧
    (sort_layer2H h w2ref).1.getD w2ref [] = h.getD w2ref [] ∧
    (sort_layer2H h w2ref).1.getD (sort_layer2H h w2ref).2 [] =
      sort_layer2 (h.getD w2ref []) := by
  refine ⟨?_, ?_, sort_layer2H_content h w2ref hr⟩
  · show h.length ≠ w2ref
    omega
  · show (sortWriteLoop w2ref h.length (sortIdxs (h.getD w2ref []))
      (h ++ [h.getD w2ref []])).getD w2ref [] = h.getD w2ref []
    unfold sortWriteLoop
    obtain ⟨h1, _⟩ := heapLoop_spec w2ref h.length
      (fun i => (sortIdxs (h.getD w2ref [])).getD i 0)
      (List.range (sortIdxs (h.getD w2ref [])).length)
      (h ++ [h.getD w2ref []]) (by simp) (by omega)
    rw [h1 w2ref (by omega), getD_append_left _ _ _ hr]

/-- Witness for C6 on a one-matrix heap holding the spec example. -/
theorem sort_layer2_no_mutation_witness :
    (sort_layer2H [[[1, 0, 1/2], [0, 2, 0]]] 0).2 ≠ 0 ∧
    (sort_layer2H [[[1, 0, 1/2], [0, 2, 0]]] 0).1.getD 0 [] =
      [[[1, 0, 1/2], [0, 2, 0]]].getD 0 [] ∧
    (sort_layer2H [[[1, 0, 1/2], [0, 2, 0]]] 0).1.getD
        (sort_layer2H [[[1, 0, 1/2], [0, 2, 0]]] 0).2 [] =
      sort_layer2 ([[[1, 0, 1/2], [0, 2, 0]]].getD 0 []) :=
  sort_layer2_no_mutation [[[1, 0, 1/2], [0, 2, 0]]] 0 (by simp)

/-! `create_connect_viewer`: for row `i`, the column is normalized by its
maximal absolute value, the triples `(wa, index, w)` are sorted, and cell
`j` takes the triple `s[N1-j-1]`, turning its normalized weight `mag` into
the activation tuple `(mag, 0)` if `mag > 0` else `(0, -mag)`. -/

/-- `np.abs(w).max()`.  All mapped values are absolute values, hence
nonnegative, so for a nonempty column folding from `0` is the maximum. -/
def maxAbs (w : List ℚ) : ℚ := (w.map (fun x => |x|)).foldl max 0

/-- `w /= np.abs(w).max()`. -/
def normalize (w : List ℚ) : List ℚ := w.map (fun x => x / maxAbs w)

/-- Python's lexicographic order on the triples `(wa, index, w)`; the third
component is only reached on equal keys, which the distinct indices rule
out. -/
def tripLe (a b : ℚ × ℕ × ℚ) : Prop :=
  a.1 < b.1 ∨ (a.1 = b.1 ∧ (a.2.1 < b.2.1 ∨ (a.2.1 = b.2.1 ∧ a.2.2 ≤ b.2.2)))

instance : DecidableRel tripLe := fun a b => by
  unfold tripLe
  infer_instance

/-- `s = sorted(zip(wa, range(N1), w))` for the normalized column. -/
def selTriples (w : List ℚ) (N1 : ℕ) : List (ℚ × ℕ × ℚ) :=
  (List.zip ((normalize w).map (fun x => |x|))
    (List.zip (List.range N1) (normalize w))).insertionSort tripLe

/-- `mag = s[N1-j-1][2]`, the normalized weight selected for cell `(row, j)`. -/
def cellMag (w : List ℚ) (N1 j : ℕ) : ℚ :=
  ((selTriples w N1).getD (N1 - j - 1) (0, 0, 0)).2.2

/-- `act = (mag, 0) if mag > 0 else (0, -mag)`. -/
def cellAct (w : List ℚ) (N1 j : ℕ) : ℚ × ℚ :=
  if cellMag w N1 j > 0 then (cellMag w N1 j, 0) else (0, -cellMag w N1 j)

/-- C7 amended: when the selected normalized weight is non-zero the
activation tuple has exactly one non-zero component, equal to its absolute
value, in the first slot for a positive weight and the second for a negative
one; a selected zero weight yields `(0, 0)` — no non-zero component. -/
theorem cellAct_signed (w : List ℚ) (N1 j : ℕ) :
    (cellMag w N1 j ≠ 0 →
      (0 < cellMag w N1 j ∧ cellAct w N1 j = (|cellMag w N1 j|, 0) ∧
        (cellAct w N1 j).1 ≠ 0 ∧ (cellAct w N1 j).2 = 0) ∨
      (cellMag w N1 j < 0 ∧ cellAct w N1 j = (0, |cellMag w N1 j|) ∧
        (cellAct w N1 j).1 = 0 ∧ (cellAct w N1 j).2 ≠ 0)) ∧
    (cellMag w N1 j = 0 → cellAct w N1 j = (0, 0)) := by
  constructor
  · intro hm
    rcases lt_trichotomy (cellMag w N1 j) 0 with h | h | h
    · right
      have he : cellAct w N1 j = (0, -cellMag w N1 j) := by
        unfold cellAct
        rw [if_neg (by linarith)]
      refine ⟨h, ?_, ?_, ?_⟩
      · rw [he, abs_of_neg h]
      · rw [he]
      · rw [he]
        simpa using ne_of_lt h
    · exact absurd h hm
    · left
      have he : cellAct w N1 j = (cellMag w N1 j, 0) := by
        unfold cellAct
        rw [if_pos h]
      refine ⟨h, ?_, ?_, ?_⟩
      · rw [he, abs_of_pos h]
      · rw [he]
        exact ne_of_gt h
      · rw [he]
  · intro hm
    unfold cellAct
    rw [hm]
    norm_num

/-- C7 counterexample: with the sorted `W2 = [[5,0],[3,2]]` the global
display width is `2`, so cell `(0, 1)` is selected; its weight is the zero
entry of the column `[5, 0]`, and its activation tuple is `(0, 0)` — not
exactly one non-zero component. -/
theorem cellAct_zero_cell_cex :
    get_elements_count 2 2 [[5, 0], [3, 2]] = 2 ∧
    cellAct [5, 0] 2 1 = (0, 0) ∧
    ¬ (((cellAct [5, 0] 2 1).1 ≠ 0 ∧ (cellAct [5, 0] 2 1).2 = 0) ∨
       ((cellAct [5, 0] 2 1).1 = 0 ∧ (cellAct [5, 0] 2 1).2 ≠ 0)) := by
  have h5 : colCount [(5 : ℚ), 0] = 1 := by
    norm_num [colCount, covLoop, sortedAbs, absList, tailSum, thresh,
      List.insertionSort, List.orderedInsert]
  have h3 : colCount [(3 : ℚ), 2] = 2 := by
    norm_num [colCount, covLoop, sortedAbs, absList, tailSum, thresh,
      List.insertionSort, List.orderedInsert]
  have hact : cellAct [5, 0] 2 1 = (0, 0) := by
    norm_num [cellAct, cellMag, selTriples, normalize, maxAbs, tripLe,
      List.insertionSort, List.orderedInsert, List.range, List.range.loop]
  refine ⟨?_, hact, ?_⟩
  · rw [get_elements_count_min]
    norm_num [h5, h3]
  · rw [hact]
    norm_num

/-! The `__main__` block's argument handling:
`if len(sys.argv) == 2: _, model_path = sys.argv`
`else: _, model_path, out = sys.argv`.
The script contains no path that prints a usage message; a wrong argument
count makes the tuple unpacking raise an uncaught `ValueError` (a stack
trace). -/

/-- Outcome of the argument handling.  `usageMessage` models an explicit
usage report; no branch of the code produces it.  `unpackFailure n` models
the uncaught `ValueError` raised when unpacking `n` values into three
names. -/
inductive ArgOutcome where
  | ok (modelPath : String) (outPath : Option String)
  | usageMessage (msg : String)
  | unpackFailure (got : ℕ)
  deriving DecidableEq

/-- The `__main__` argument handling on `sys.argv` (element `0` is the
program name).  Two elements unpack into `(_, model_path)`; anything else
reaches the `else` branch, whose three-name unpacking succeeds only for
exactly three elements. -/
def parse_argv (argv : List String) : ArgOutcome :=
  if argv.length = 2 then
    match argv with
    | [_, m] => ArgOutcome.ok m none
    | _ => ArgOutcome.unpackFailure argv.length
  else
    match argv with
    | [_, m, o] => ArgOutcome.ok m (some o)
    | _ => ArgOutcome.unpackFailure argv.length

/-- C8 counterexample: invoked with no positional argument (`argv` is just
the program name), the script does not report a usage error: it dies with
the unpacking failure. -/
theorem parse_argv_usage_cex :
    parse_argv ["top_filters"] = ArgOutcome.unpackFailure 1 ∧
    (∀ s, parse_argv ["top_filters"] ≠ ArgOutcome.usageMessage s) ∧
    parse_argv ["top_filters", "a", "b", "c"] = ArgOutcome.unpackFailure 4 ∧
    (∀ s, parse_argv ["top_filters", "a", "b", "c"] ≠ ArgOutcome.usageMessage s) := by
  refine ⟨rfl, ?_, rfl, ?_⟩ <;> intro s h <;> simp [parse_argv] at h

/-- C8 amended: every invocation with 0 or at least 3 positional arguments
(`argv` length 1, or at least 4 counting the program name) ends in the
uncaught unpacking `ValueError`, never in an explicit usage report; only
1 or 2 positional arguments are accepted. -/
theorem parse_argv_unpack (argv : List String)
    (h : argv.length = 1 ∨ 4 ≤ argv.length) :
    parse_argv argv = ArgOutcome.unpackFailure argv.length := by
  match argv with
  | [] => simp at h
  | [a] => rfl
  | [a, b] => simp at h
  | [a, b, c] => simp at h
  | a :: b :: c :: d :: t =>
    show parse_argv (a :: b :: c :: d :: t) = _
    unfold parse_argv
    rw [if_neg (by simp)]

/-- Witness for C8 (amended) at a four-element `argv`. -/
theorem parse_argv_unpack_witness :
    parse_argv ["top_filters", "model.pkl", "out", "extra"] =
      ArgOutcome.unpackFailure (["top_filters", "model.pkl", "out", "extra"] : List String).length :=
  parse_argv_unpack ["top_filters", "model.pkl", "out", "extra"] (by simp)

end TopFilters
